import Mathlib

/-!
Shallow embedding of the peregrine filter-and-aggregate pipeline.

The repository has two variants of the pipeline:
* an in-memory variant (the unnamed CLI script): parseValue,
  parsePropertyFilters, filterData, aggregateData, formatAggregation, run;
* a relational variant (index.js): the same parser, a SQL query stage
  treated as an external collaborator, and an aggregateData over flat
  rows that remaps 0/1 to false/true for the declared boolean columns.

JavaScript dynamic values are embedded as the inductive type Value.
JavaScript objects used as dictionaries (the filter map and the
aggregation accumulators) are embedded as insertion-ordered association
lists with JS assignment semantics (objSet: overwrite in place, append
when absent), which is exactly the key order Object.keys observes.

JSON.parse / JSON.stringify are embedded for the JSON fragment the
pipeline exercises: null, booleans, integer numerals, strings with the
common single-character escapes, arrays and objects.  Fractional and
exponent number forms and \uXXXX escapes are left out of the modelled
fragment: floating point is not representable here, and no claim
involves such inputs.  JavaScript === on two values is structural for
scalars and reference identity for arrays/objects; since a filter value
and a stored entity value always come from two independent parses they
are never the same reference, so jsEq returns false whenever either
side is composite.
-/

namespace Peregrine

/-- A JavaScript/JSON runtime value as the pipeline sees it. -/
inductive Value where
  | vNull
  | vBool (b : Bool)
  | vInt (n : Int)
  | vStr (s : String)
  | vArr (elems : List Value)
  | vObj (fields : List (String × Value))

mutual

def beqValue : Value → Value → Bool
  | Value.vNull, Value.vNull => true
  | Value.vBool a, Value.vBool b => a == b
  | Value.vInt a, Value.vInt b => a == b
  | Value.vStr a, Value.vStr b => a == b
  | Value.vArr xs, Value.vArr ys => beqValueList xs ys
  | Value.vObj xs, Value.vObj ys => beqValueFields xs ys
  | _, _ => false

def beqValueList : List Value → List Value → Bool
  | [], [] => true
  | x :: xs, y :: ys => beqValue x y && beqValueList xs ys
  | _, _ => false

def beqValueFields : List (String × Value) → List (String × Value) → Bool
  | [], [] => true
  | x :: xs, y :: ys => (x.1 == y.1 && beqValue x.2 y.2) && beqValueFields xs ys
  | _, _ => false

end

mutual

theorem beqValue_iff : (a b : Value) → (beqValue a b = true ↔ a = b)
  | Value.vNull, b => by cases b <;> simp [beqValue]
  | Value.vBool x, b => by cases b <;> simp [beqValue]
  | Value.vInt x, b => by cases b <;> simp [beqValue]
  | Value.vStr x, b => by cases b <;> simp [beqValue]
  | Value.vArr xs, b => by
      cases b <;> simp [beqValue]
      case vArr ys => exact beqValueList_iff xs ys
  | Value.vObj xs, b => by
      cases b <;> simp [beqValue]
      case vObj ys => exact beqValueFields_iff xs ys

theorem beqValueList_iff : (xs ys : List Value) → (beqValueList xs ys = true ↔ xs = ys)
  | [], ys => by cases ys <;> simp [beqValueList]
  | x :: xs, ys => by
      cases ys with
      | nil => simp [beqValueList]
      | cons y ys => simp [beqValueList, beqValue_iff x y, beqValueList_iff xs ys]

theorem beqValueFields_iff : (xs ys : List (String × Value)) →
    (beqValueFields xs ys = true ↔ xs = ys)
  | [], ys => by cases ys <;> simp [beqValueFields]
  | x :: xs, ys => by
      cases ys with
      | nil => simp [beqValueFields]
      | cons y ys =>
        simp [beqValueFields, beqValue_iff x.2 y.2, beqValueFields_iff xs ys, Prod.ext_iff]

end

instance : DecidableEq Value := fun a b =>
  decidable_of_iff (beqValue a b = true) (beqValue_iff a b)

/-- `value === null` on an embedded value. -/
def Value.isNull : Value → Bool
  | Value.vNull => true
  | _ => false

/-- True exactly on the scalar shapes (null, boolean, number, string). -/
def Value.isScalar : Value → Bool
  | Value.vArr _ => false
  | Value.vObj _ => false
  | _ => true

/-- JavaScript strict equality === as the pipeline can observe it.
Scalars compare structurally; arrays/objects compare by reference, and
the two sides of every comparison in this program (a parsed filter value
and a stored entity value) originate from independent parses, so a
composite value never compares equal. -/
def jsEq : Value → Value → Bool
  | Value.vNull, Value.vNull => true
  | Value.vBool a, Value.vBool b => a == b
  | Value.vInt a, Value.vInt b => a == b
  | Value.vStr a, Value.vStr b => a == b
  | _, _ => false

/-! ## Character-level string utilities

String.splitOn does not reduce in the kernel, so the JavaScript
String.prototype.split with a one-character separator is embedded
directly on character lists. -/

/-- Split a character list on a separator character: the JS semantics of
"abc".split(sep) for a single-character separator ("" gives [""],
trailing separators give a trailing empty piece). -/
def splitOnChar (sep : Char) : List Char → List (List Char)
  | [] => [[]]
  | c :: cs =>
    if c = sep then [] :: splitOnChar sep cs
    else
      match splitOnChar sep cs with
      | [] => [[c]]
      | piece :: pieces => (c :: piece) :: pieces

/-- JavaScript s.split(sep) for a one-character separator. -/
def jsSplit (s : String) (sep : Char) : List String :=
  (splitOnChar sep s.toList).map String.mk

/-! ## JSON.parse on the modelled fragment -/

def isWsChar (c : Char) : Bool :=
  c = ' ' || c = '\t' || c = '\n' || c = '\r'

def skipWs : List Char → List Char
  | [] => []
  | c :: cs => if isWsChar c then skipWs cs else c :: cs

def isDigitChar (c : Char) : Bool :=
  '0' ≤ c && c ≤ '9'

/-- Longest digit prefix and the remainder. -/
def takeDigits : List Char → List Char × List Char
  | [] => ([], [])
  | c :: cs =>
    if isDigitChar c then
      match takeDigits cs with
      | (ds, rest) => (c :: ds, rest)
    else ([], c :: cs)

def digitsToNat (ds : List Char) : Nat :=
  ds.foldl (fun acc c => acc * 10 + (c.toNat - '0'.toNat)) 0

/-- A JSON natural numeral: nonempty digits, no leading zero unless the
numeral is exactly 0. -/
def parseNatChars (cs : List Char) : Option (Nat × List Char) :=
  match takeDigits cs with
  | ([], _) => none
  | (d :: ds, rest) =>
    if d = '0' && ds ≠ [] then none
    else some (digitsToNat (d :: ds), rest)

/-- A JSON integer numeral with optional leading minus. -/
def parseIntChars (cs : List Char) : Option (Int × List Char) :=
  match cs with
  | '-' :: rest =>
    match parseNatChars rest with
    | none => none
    | some (n, r) => some (-(n : Int), r)
  | _ =>
    match parseNatChars cs with
    | none => none
    | some (n, r) => some ((n : Int), r)

/-- The body of a JSON string literal after the opening quote, up to and
consuming the closing quote.  Supported escapes: quote, backslash,
slash, n, t, r, b, f. -/
def parseStringChars : Nat → List Char → Option (List Char × List Char)
  | 0, _ => none
  | _ + 1, [] => none
  | fuel + 1, c :: cs =>
    if c = '"' then some ([], cs)
    else if c = '\\' then
      match cs with
      | [] => none
      | e :: cs2 =>
        let ec : Option Char :=
          if e = '"' then some '"'
          else if e = '\\' then some '\\'
          else if e = '/' then some '/'
          else if e = 'n' then some '\n'
          else if e = 't' then some '\t'
          else if e = 'r' then some '\r'
          else if e = 'b' then some (Char.ofNat 8)
          else if e = 'f' then some (Char.ofNat 12)
          else none
        match ec with
        | none => none
        | some ch =>
          match parseStringChars fuel cs2 with
          | none => none
          | some (out, rest) => some (ch :: out, rest)
    else
      match parseStringChars fuel cs with
      | none => none
      | some (out, rest) => some (c :: out, rest)

def lbrace : Char := Char.ofNat 123

def rbrace : Char := Char.ofNat 125

mutual

/-- One JSON value, with leading whitespace skipped; returns the value
and the unconsumed remainder.  The fuel argument only forces
termination; jsonParse supplies one unit more than the input length,
which the grammar (every recursive call follows at least one consumed
character) never exhausts. -/
def parseJson : Nat → List Char → Option (Value × List Char)
  | 0, _ => none
  | fuel + 1, cs =>
    match skipWs cs with
    | [] => none
    | c :: rest =>
      if c = 'n' then
        match rest with
        | 'u' :: 'l' :: 'l' :: r => some (Value.vNull, r)
        | _ => none
      else if c = 't' then
        match rest with
        | 'r' :: 'u' :: 'e' :: r => some (Value.vBool true, r)
        | _ => none
      else if c = 'f' then
        match rest with
        | 'a' :: 'l' :: 's' :: 'e' :: r => some (Value.vBool false, r)
        | _ => none
      else if c = '"' then
        match parseStringChars (fuel + 1) rest with
        | none => none
        | some (out, r) => some (Value.vStr (String.mk out), r)
      else if c = '[' then
        match skipWs rest with
        | ']' :: r => some (Value.vArr [], r)
        | rest2 =>
          match parseJsonItems fuel rest2 with
          | none => none
          | some (items, r) => some (Value.vArr items, r)
      else if c = lbrace then
        match skipWs rest with
        | d :: r =>
          if d = rbrace then some (Value.vObj [], r)
          else
            match parseJsonFields fuel (d :: r) with
            | none => none
            | some (fields, r2) => some (Value.vObj fields, r2)
        | [] => none
      else
        match parseIntChars (c :: rest) with
        | none => none
        | some (n, r) => some (Value.vInt n, r)

/-- Comma-separated array items up to and consuming the closing bracket. -/
def parseJsonItems : Nat → List Char → Option (List Value × List Char)
  | 0, _ => none
  | fuel + 1, cs =>
    match parseJson fuel cs with
    | none => none
    | some (v, rest) =>
      match skipWs rest with
      | ',' :: r2 =>
        match parseJsonItems fuel r2 with
        | none => none
        | some (items, r3) => some (v :: items, r3)
      | ']' :: r2 => some ([v], r2)
      | _ => none

/-- Comma-separated object fields up to and consuming the closing brace. -/
def parseJsonFields : Nat → List Char → Option (List (String × Value) × List Char)
  | 0, _ => none
  | fuel + 1, cs =>
    match skipWs cs with
    | '"' :: rest =>
      match parseStringChars (fuel + 1) rest with
      | none => none
      | some (key, r1) =>
        match skipWs r1 with
        | ':' :: r2 =>
          match parseJson fuel r2 with
          | none => none
          | some (v, r3) =>
            match skipWs r3 with
            | ',' :: r4 =>
              match parseJsonFields fuel r4 with
              | none => none
              | some (fields, r5) => some ((String.mk key, v) :: fields, r5)
            | d :: r4 =>
              if d = rbrace then some ([(String.mk key, v)], r4) else none
            | [] => none
        | _ => none
    | _ => none

end

/-- JSON.parse: whole-input parse of one JSON value, allowing leading and
trailing whitespace; none models the thrown SyntaxError. -/
def jsonParse (s : String) : Option Value :=
  match parseJson (s.toList.length + 1) s.toList with
  | none => none
  | some (v, rest) => if skipWs rest = [] then some v else none

/-! ## JSON.stringify on the modelled fragment -/

def escapeStringChar (c : Char) : List Char :=
  if c = '"' then ['\\', '"']
  else if c = '\\' then ['\\', '\\']
  else if c = '\n' then ['\\', 'n']
  else if c = '\t' then ['\\', 't']
  else if c = '\r' then ['\\', 'r']
  else [c]

/-- A JSON string literal for s, quotes included. -/
def quoteString (s : String) : String :=
  String.mk ('"' :: (s.toList.flatMap escapeStringChar ++ ['"']))

def joinComma : List String → String
  | [] => ""
  | [s] => s
  | s :: rest => s ++ "," ++ joinComma rest

mutual

/-- JSON.stringify of a value of the modelled fragment. -/
def stringify : Value → String
  | Value.vNull => "null"
  | Value.vBool true => "true"
  | Value.vBool false => "false"
  | Value.vInt n => toString n
  | Value.vStr s => quoteString s
  | Value.vArr xs => "[" ++ joinComma (stringifyItems xs) ++ "]"
  | Value.vObj fs =>
    String.mk [lbrace] ++ joinComma (stringifyFields fs) ++ String.mk [rbrace]

def stringifyItems : List Value → List String
  | [] => []
  | v :: vs => stringify v :: stringifyItems vs

def stringifyFields : List (String × Value) → List String
  | [] => []
  | f :: fs => (quoteString f.1 ++ ":" ++ stringify f.2) :: stringifyFields fs

end

/-! ## The filter specification parser -/

/-- parseValue (both variants, identical code): JSON.parse the raw
string, falling back to the raw string itself when parsing fails. -/
def parseValue (value : String) : Value :=
  match jsonParse value with
  | some v => v
  | none => Value.vStr value

/-! ## JS objects as insertion-ordered association lists -/

/-- Property read m[k]: the value at the first entry with key k. -/
def objGet {α : Type} : List (String × α) → String → Option α
  | [], _ => none
  | kv :: rest, k => if kv.1 = k then some kv.2 else objGet rest k

/-- Property assignment m[k] = v: overwrite in place when the key is
present (JS objects keep the first-insertion position), append at the
end when absent. -/
def objSet {α : Type} : List (String × α) → String → α → List (String × α)
  | [], k, v => [(k, v)]
  | kv :: rest, k, v =>
    if kv.1 = k then (k, v) :: rest else kv :: objSet rest k v

/-- One raw filter entry the way parsePropertyFilters treats it: split on
every colon, destructure the first two segments as key and value list
(any further segments are dropped), fail on a missing or empty part,
otherwise parse the comma-separated values. -/
def parseOneFilter (filter : String) : Option (String × List Value) :=
  match jsSplit filter ':' with
  | key :: values :: _ =>
    if key = "" || values = "" then none
    else some (key, (jsSplit values ',').map parseValue)
  | _ => none

/-- The loop body of parsePropertyFilters: a well-formed entry is
assigned into the map, a malformed one is skipped (the code logs it to
stderr and continues). -/
def parseFilterStep (m : List (String × List Value)) (filter : String) :
    List (String × List Value) :=
  match parseOneFilter filter with
  | none => m
  | some kv => objSet m kv.1 kv.2

/-- parsePropertyFilters (both variants, identical code): fold the raw
entries into a filter map, skipping invalid entries. -/
def parsePropertyFilters (propertyFilters : Option (List String)) :
    List (String × List Value) :=
  match propertyFilters with
  | none => []
  | some filters => filters.foldl parseFilterStep []

/-! ## The entity data model and the entity filter -/

/-- One (slug, type, value) property of an entity.  The type tag is only
read by the out-of-scope persistence layer. -/
structure Property where
  slug : String
  ptype : String
  value : Value
deriving DecidableEq

/-- One entity: a model name and its ordered property list. -/
structure Entity where
  model : String
  properties : List Property
deriving DecidableEq

/-- filterData: keep the entities whose model passes the allow-list
(absent or empty list means every model passes) and which, for every key
of the filter map, carry a property with that slug whose value is
non-null and === one of the acceptable values.  The code looks the slug
up with Array.prototype.find, hence the first property with the slug. -/
def filterData (data : List Entity) (modelFilters : Option (List String))
    (propertyFilterMap : List (String × List Value)) : List Entity :=
  data.filter fun entity =>
    let modelMatch : Bool :=
      match modelFilters with
      | none => true
      | some mf => mf.isEmpty || mf.contains entity.model
    let propertyMatch : Bool :=
      propertyFilterMap.all fun kv =>
        match entity.properties.find? (fun p => p.slug == kv.1) with
        | none => false
        | some prop =>
          !prop.value.isNull && kv.2.any (fun av => jsEq prop.value av)
    modelMatch && propertyMatch

/-! ## The aggregator -/

/-- The bucketing key of a stored value: a string is used as itself, any
other value is JSON.stringify of it. -/
def valueKey (value : Value) : String :=
  match value with
  | Value.vStr s => s
  | v => stringify v

/-- aggregation[slug][vk] = (aggregation[slug][vk] || 0) + 1, together
with the preceding creation of aggregation[slug] when absent. -/
def bump (agg : List (String × List (String × Nat))) (slug vk : String) :
    List (String × List (String × Nat)) :=
  let counts := (objGet agg slug).getD []
  objSet agg slug (objSet counts vk ((objGet counts vk).getD 0 + 1))

/-- aggregateData (in-memory variant): for every property of every
entity, skip null values, otherwise count the occurrence under
(slug, valueKey). -/
def aggregateData (filteredData : List Entity) :
    List (String × List (String × Nat)) :=
  filteredData.foldl
    (fun aggregation entity =>
      entity.properties.foldl
        (fun aggregation prop =>
          if prop.value.isNull then aggregation
          else bump aggregation prop.slug (valueKey prop.value))
        aggregation)
    []

/-- Stable insertion of one pair into a list sorted by count descending:
the pair goes after every earlier pair of equal or larger count. -/
def insertByCountDesc {α : Type} (x : α × Nat) : List (α × Nat) → List (α × Nat)
  | [] => [x]
  | y :: ys => if y.2 < x.2 then x :: y :: ys else y :: insertByCountDesc x ys

/-- The stable sort by count descending that Array.prototype.sort with
comparator (a, b) => b[1] - a[1] performs. -/
def sortByCountDesc {α : Type} (l : List (α × Nat)) : List (α × Nat) :=
  l.foldl (fun acc x => insertByCountDesc x acc) []

/-- formatAggregation (in-memory variant): per slug, re-parse each value
key back into a value and sort the (value, count) pairs by count
descending. -/
def formatAggregation (aggregation : List (String × List (String × Nat))) :
    List (String × List (Value × Nat)) :=
  aggregation.map fun scl =>
    (scl.1, sortByCountDesc (scl.2.map fun kc => (parseValue kc.1, kc.2)))

/-- run (in-memory variant): parse the filters, filter the entities,
aggregate, format. -/
def run (data : List Entity) (modelFilters : Option (List String))
    (propertyFilters : Option (List String)) : List (String × List (Value × Nat)) :=
  formatAggregation
    (aggregateData
      (filterData data modelFilters (parsePropertyFilters propertyFilters)))

/-! ## The relational variant (index.js) -/

/-- The columns index.js declares to hold booleans stored as 0/1. -/
def booleanColumns : List String := ["stolen", "impounded"]

/-- The 0/1-to-boolean remap index.js applies to the declared boolean
columns before bucketing. -/
def normalizeBooleanColumn (key : String) (value : Value) : Value :=
  if booleanColumns.contains key then
    if value = Value.vInt 1 then Value.vBool true
    else if value = Value.vInt 0 then Value.vBool false
    else value
  else value

/-- aggregateData (relational variant): rows are flat key-to-scalar
records; null values are skipped, boolean columns are remapped, then the
occurrence is counted under (key, valueKey). -/
def aggregateDataRel (filteredData : List (List (String × Value))) :
    List (String × List (String × Nat)) :=
  filteredData.foldl
    (fun aggregation row =>
      row.foldl
        (fun aggregation kv =>
          if kv.2.isNull then aggregation
          else bump aggregation kv.1 (valueKey (normalizeBooleanColumn kv.1 kv.2)))
        aggregation)
    []

/-- formatAggregation (relational variant): no re-parse, only the stable
sort by count descending. -/
def formatAggregationRel (aggregation : List (String × List (String × Nat))) :
    List (String × List (String × Nat)) :=
  aggregation.map fun scl => (scl.1, sortByCountDesc scl.2)

/-- The count the aggregation holds for value key vk under slug
(0 when either level is absent). -/
def aggGet (agg : List (String × List (String × Nat))) (slug vk : String) : Nat :=
  (objGet ((objGet agg slug).getD []) vk).getD 0

/-- Fold `bump` over a list of (slug, value key) occurrences. -/
def applyOccs (a : List (String × List (String × Nat)))
    (occs : List (String × String)) : List (String × List (String × Nat)) :=
  occs.foldl (fun acc o => bump acc o.1 o.2) a

/-- How many occurrences of the pair (slug, vk) a stream holds. -/
def occCount (occs : List (String × String)) (slug vk : String) : Nat :=
  occs.countP fun o => decide (o.1 = slug ∧ o.2 = vk)

/-- The non-null (slug, value key) occurrences of one property list. -/
def propOccs (ps : List Property) : List (String × String) :=
  ps.filterMap fun p =>
    if p.value.isNull then none else some (p.slug, valueKey p.value)

/-- The non-null (slug, value key) occurrences of an entity list, in
processing order. -/
def propertyOccurrences (data : List Entity) : List (String × String) :=
  data.flatMap fun e => propOccs e.properties

/-- The non-null (key, value key) occurrences of one flat row, after the
boolean-column remap. -/
def rowOccs (row : List (String × Value)) : List (String × String) :=
  row.filterMap fun kv =>
    if kv.2.isNull then none
    else some (kv.1, valueKey (normalizeBooleanColumn kv.1 kv.2))

/-- The non-null occurrences of a flat row list, in processing order. -/
def rowOccurrences (rows : List (List (String × Value))) : List (String × String) :=
  rows.flatMap rowOccs

/-- Well-formedness of an aggregation accumulator: every slug entry has
distinct value keys, is nonempty, and holds only positive counts. -/
def AggWF (agg : List (String × List (String × Nat))) : Prop :=
  ∀ scl ∈ agg, (scl.2.map Prod.fst).Nodup ∧ scl.2 ≠ [] ∧ ∀ kc ∈ scl.2, 1 ≤ kc.2

/-- The entity-keeping predicate as the specification words it: the
model allow-list is absent or empty or contains the model exactly, and
for every key of the filter map the entity HAS a property with that slug
whose value is non-null and === one of the acceptable values.  It
differs from the code only in reading the slug lookup as an existential
rather than as Array.prototype.find (the first match); the two coincide
when slugs are unique within an entity, the data model invariant. -/
def specKeep (modelFilters : Option (List String))
    (propertyFilterMap : List (String × List Value)) (entity : Entity) : Bool :=
  (match modelFilters with
   | none => true
   | some allow => allow.isEmpty || allow.contains entity.model)
  && propertyFilterMap.all fun kv =>
       entity.properties.any fun p =>
         p.slug == kv.1 && !p.value.isNull && kv.2.any (fun av => jsEq p.value av)

/-- Number of times a flat row list stores exactly the value v under a
key. -/
def valCount (rows : List (List (String × Value))) (k : String) (v : Value) : Nat :=
  (rows.flatMap id).countP fun kv => decide (kv.1 = k ∧ kv.2 = v)

end Peregrine

namespace Peregrine

/-! ## Association-list lemmas for the JS-object embedding -/

theorem objGet_objSet_self {α : Type} (m : List (String × α)) (k : String) (v : α) :
    objGet (objSet m k v) k = some v := by
  induction m with
  | nil => simp [objGet, objSet]
  | cons kv rest ih =>
    by_cases h : kv.1 = k
    · simp [objSet, h, objGet]
    · simp [objSet, h, objGet, ih]

theorem objGet_objSet_ne {α : Type} (m : List (String × α)) (k k2 : String) (v : α)
    (h : k2 ≠ k) : objGet (objSet m k v) k2 = objGet m k2 := by
  have h2 : ¬k = k2 := Ne.symm h
  induction m with
  | nil => simp [objGet, objSet, h2]
  | cons kv rest ih =>
    by_cases hk : kv.1 = k
    · have hk2 : ¬kv.1 = k2 := by rw [hk]; exact h2
      simp [objSet, hk, objGet, h2, hk2]
    · by_cases hk2 : kv.1 = k2
      · simp [objSet, hk, objGet, hk2, h]
      · simp [objSet, hk, objGet, hk2, ih]

theorem objSet_ne_nil {α : Type} (m : List (String × α)) (k : String) (v : α) :
    objSet m k v ≠ [] := by
  cases m with
  | nil => simp [objSet]
  | cons kv rest =>
    by_cases h : kv.1 = k <;> simp [objSet, h]

theorem mem_objSet {α : Type} {m : List (String × α)} {k : String} {v : α}
    {x : String × α} (hx : x ∈ objSet m k v) : x = (k, v) ∨ x ∈ m := by
  induction m with
  | nil => simpa [objSet] using hx
  | cons kv rest ih =>
    by_cases h : kv.1 = k
    · simp only [objSet, h, if_pos rfl] at hx
      rcases List.mem_cons.1 hx with h1 | h1
      · exact Or.inl h1
      · exact Or.inr (List.mem_cons_of_mem _ h1)
    · simp only [objSet, h, if_neg h] at hx
      rcases List.mem_cons.1 hx with h1 | h1
      · exact Or.inr (by rw [h1]; exact List.mem_cons_self _ _)
      · rcases ih h1 with h2 | h2
        · exact Or.inl h2
        · exact Or.inr (List.mem_cons_of_mem _ h2)

theorem objGet_mem {α : Type} {m : List (String × α)} {k : String} {v : α}
    (h : objGet m k = some v) : (k, v) ∈ m := by
  induction m with
  | nil => simp [objGet] at h
  | cons kv rest ih =>
    by_cases hk : kv.1 = k
    · simp only [objGet, if_pos hk] at h
      have he : (k, v) = kv := by
        cases kv
        simp_all
      rw [he]
      exact List.mem_cons_self _ _
    · simp only [objGet, if_neg hk] at h
      exact List.mem_cons_of_mem _ (ih h)

theorem objGet_eq_none_iff {α : Type} (m : List (String × α)) (k : String) :
    objGet m k = none ↔ k ∉ m.map Prod.fst := by
  induction m with
  | nil => simp [objGet]
  | cons kv rest ih =>
    by_cases hk : kv.1 = k
    · simp [objGet, hk]
    · have hk2 : ¬k = kv.1 := fun e => hk e.symm
      simp [objGet, hk, ih, hk2]

theorem objSet_map_fst {α : Type} (m : List (String × α)) (k : String) (v : α) :
    (objSet m k v).map Prod.fst =
      if k ∈ m.map Prod.fst then m.map Prod.fst else m.map Prod.fst ++ [k] := by
  induction m with
  | nil => simp [objSet]
  | cons kv rest ih =>
    by_cases hk : kv.1 = k
    · simp [objSet, hk]
    · have hk2 : ¬k = kv.1 := fun e => hk e.symm
      by_cases hmem : k ∈ rest.map Prod.fst <;>
        simp [objSet, hk, ih, hmem, hk2]

theorem mem_fst_objSet {α : Type} (m : List (String × α)) (k k2 : String) (v : α) :
    k2 ∈ (objSet m k v).map Prod.fst ↔ k2 ∈ m.map Prod.fst ∨ k2 = k := by
  rw [objSet_map_fst]
  by_cases hmem : k ∈ m.map Prod.fst
  · simp only [if_pos hmem]
    constructor
    · exact Or.inl
    · rintro (h | rfl)
      · exact h
      · exact hmem
  · simp [if_neg hmem]

theorem objSet_of_objGet_none {α : Type} (m : List (String × α)) (k : String) (v : α)
    (h : objGet m k = none) : objSet m k v = m ++ [(k, v)] := by
  induction m with
  | nil => simp [objSet]
  | cons kv rest ih =>
    by_cases hk : kv.1 = k
    · simp [objGet, hk] at h
    · simp only [objGet, if_neg hk] at h
      simp [objSet, hk, ih h]

theorem objGet_map_snd {α β : Type} (m : List (String × α)) (g : α → β) (k : String) :
    objGet (m.map fun kv => (kv.1, g kv.2)) k = (objGet m k).map g := by
  induction m with
  | nil => simp [objGet]
  | cons kv rest ih =>
    by_cases hk : kv.1 = k <;> simp [objGet, hk, ih]

/-! ## Occurrence-count characterization of the aggregators

Both aggregateData variants are folds of `bump` over the stream of
non-null (slug, value key) occurrences; the count stored in any bucket
is exactly the number of matching occurrences. -/

theorem aggGet_bump_self (a : List (String × List (String × Nat))) (s k : String) :
    aggGet (bump a s k) s k = aggGet a s k + 1 := by
  simp [aggGet, bump, objGet_objSet_self]

theorem aggGet_bump_ne (a : List (String × List (String × Nat))) (s k s2 k2 : String)
    (h : ¬(s2 = s ∧ k2 = k)) : aggGet (bump a s k) s2 k2 = aggGet a s2 k2 := by
  by_cases hs : s2 = s
  · have hk : k2 ≠ k := fun e => h ⟨hs, e⟩
    subst hs
    simp [aggGet, bump, objGet_objSet_self, objGet_objSet_ne _ _ _ _ hk]
  · simp [aggGet, bump, objGet_objSet_ne _ _ _ _ hs]

theorem aggGet_applyOccs (occs : List (String × String))
    (a : List (String × List (String × Nat))) (s k : String) :
    aggGet (applyOccs a occs) s k = aggGet a s k + occCount occs s k := by
  induction occs generalizing a with
  | nil => simp [applyOccs, occCount]
  | cons o rest ih =>
    have hstep : applyOccs a (o :: rest) = applyOccs (bump a o.1 o.2) rest := rfl
    rw [hstep, ih]
    by_cases h : o.1 = s ∧ o.2 = k
    · obtain ⟨h1, h2⟩ := h
      subst h1; subst h2
      rw [aggGet_bump_self]
      simp [occCount, List.countP_cons]
      omega
    · rw [aggGet_bump_ne _ _ _ _ _ (fun e => h ⟨e.1.symm, e.2.symm⟩)]
      have : ¬(o.1 = s ∧ o.2 = k) := h
      simp [occCount, List.countP_cons, this]

end Peregrine

namespace Peregrine

theorem applyOccs_append (a : List (String × List (String × Nat)))
    (l1 l2 : List (String × String)) :
    applyOccs a (l1 ++ l2) = applyOccs (applyOccs a l1) l2 :=
  List.foldl_append _ _ _ _

theorem foldl_props_eq_applyOccs (ps : List Property)
    (a : List (String × List (String × Nat))) :
    ps.foldl
      (fun aggregation prop =>
        if prop.value.isNull then aggregation
        else bump aggregation prop.slug (valueKey prop.value)) a
      = applyOccs a (propOccs ps) := by
  induction ps generalizing a with
  | nil => rfl
  | cons p ps ih =>
    by_cases h : p.value.isNull = true
    · simp [List.foldl_cons, h, propOccs, List.filterMap_cons, ih, applyOccs]
    · rw [List.foldl_cons, if_neg h, ih]
      simp [propOccs, List.filterMap_cons, h, applyOccs]

theorem aggregateData_eq_applyOccs (data : List Entity) :
    aggregateData data = applyOccs [] (propertyOccurrences data) := by
  suffices hgen : ∀ a, data.foldl
      (fun aggregation entity =>
        entity.properties.foldl
          (fun aggregation prop =>
            if prop.value.isNull then aggregation
            else bump aggregation prop.slug (valueKey prop.value))
          aggregation) a = applyOccs a (propertyOccurrences data) by
    exact hgen []
  induction data with
  | nil => intro a; rfl
  | cons e rest ih =>
    intro a
    rw [List.foldl_cons, ih, foldl_props_eq_applyOccs]
    simp only [propertyOccurrences, List.flatMap_cons, applyOccs_append]

theorem foldl_row_eq_applyOccs (row : List (String × Value))
    (a : List (String × List (String × Nat))) :
    row.foldl
      (fun aggregation kv =>
        if kv.2.isNull then aggregation
        else bump aggregation kv.1 (valueKey (normalizeBooleanColumn kv.1 kv.2))) a
      = applyOccs a (rowOccs row) := by
  induction row generalizing a with
  | nil => rfl
  | cons kv row ih =>
    by_cases h : kv.2.isNull = true
    · simp [List.foldl_cons, h, rowOccs, List.filterMap_cons, ih, applyOccs]
    · rw [List.foldl_cons, if_neg h, ih]
      simp [rowOccs, List.filterMap_cons, h, applyOccs]

theorem aggregateDataRel_eq_applyOccs (rows : List (List (String × Value))) :
    aggregateDataRel rows = applyOccs [] (rowOccurrences rows) := by
  suffices hgen : ∀ a, rows.foldl
      (fun aggregation row =>
        row.foldl
          (fun aggregation kv =>
            if kv.2.isNull then aggregation
            else bump aggregation kv.1 (valueKey (normalizeBooleanColumn kv.1 kv.2)))
          aggregation) a = applyOccs a (rowOccurrences rows) by
    exact hgen []
  induction rows with
  | nil => intro a; rfl
  | cons row rest ih =>
    intro a
    rw [List.foldl_cons, ih, foldl_row_eq_applyOccs]
    simp only [rowOccurrences, List.flatMap_cons, applyOccs_append]

theorem aggGet_nil (s k : String) : aggGet [] s k = 0 := rfl

theorem aggGet_aggregateData (data : List Entity) (s k : String) :
    aggGet (aggregateData data) s k = occCount (propertyOccurrences data) s k := by
  rw [aggregateData_eq_applyOccs, aggGet_applyOccs, aggGet_nil]
  omega

theorem aggGet_aggregateDataRel (rows : List (List (String × Value))) (s k : String) :
    aggGet (aggregateDataRel rows) s k = occCount (rowOccurrences rows) s k := by
  rw [aggregateDataRel_eq_applyOccs, aggGet_applyOccs, aggGet_nil]
  omega

theorem occCount_perm_of_perm {data1 data2 : List Entity} (h : data1.Perm data2)
    (s k : String) :
    occCount (propertyOccurrences data1) s k = occCount (propertyOccurrences data2) s k := by
  induction h with
  | nil => rfl
  | cons e _ ih =>
    simp only [propertyOccurrences, List.flatMap_cons, occCount, List.countP_append] at ih ⊢
    omega
  | swap x y l =>
    simp only [propertyOccurrences, List.flatMap_cons, occCount, List.countP_append]
    omega
  | trans _ _ ih1 ih2 => exact ih1.trans ih2

end Peregrine

namespace Peregrine

/-! ## Entry predicates and well-formedness of the aggregation -/

theorem bump_entryPred {Q : String → String → Prop}
    {a : List (String × List (String × Nat))}
    (ha : ∀ scl ∈ a, ∀ kc ∈ scl.2, Q scl.1 kc.1) {s k : String} (hQ : Q s k) :
    ∀ scl ∈ bump a s k, ∀ kc ∈ scl.2, Q scl.1 kc.1 := by
  intro scl hscl kc hkc
  simp only [bump] at hscl
  rcases mem_objSet hscl with h1 | h1
  · subst h1
    rcases mem_objSet hkc with h2 | h2
    · subst h2
      exact hQ
    · rcases hg : objGet a s with _ | cl
      · rw [hg] at h2
        simp at h2
      · rw [hg] at h2
        exact ha (s, cl) (objGet_mem hg) kc h2
  · exact ha scl h1 kc hkc

theorem applyOccs_entryPred (Q : String → String → Prop)
    (occs : List (String × String)) (a : List (String × List (String × Nat)))
    (ha : ∀ scl ∈ a, ∀ kc ∈ scl.2, Q scl.1 kc.1)
    (hoccs : ∀ o ∈ occs, Q o.1 o.2) :
    ∀ scl ∈ applyOccs a occs, ∀ kc ∈ scl.2, Q scl.1 kc.1 := by
  induction occs generalizing a with
  | nil => exact ha
  | cons o rest ih =>
    exact ih (bump a o.1 o.2)
      (bump_entryPred ha (hoccs o (List.mem_cons_self _ _)))
      (fun o2 h2 => hoccs o2 (List.mem_cons_of_mem _ h2))

theorem bumpValue_nodup {counts : List (String × Nat)} (k : String) (n : Nat)
    (h : (counts.map Prod.fst).Nodup) : ((objSet counts k n).map Prod.fst).Nodup := by
  rw [objSet_map_fst]
  by_cases hmem : k ∈ counts.map Prod.fst
  · simpa [hmem] using h
  · simp [hmem, List.nodup_append, h]

theorem bump_wf {a : List (String × List (String × Nat))} (ha : AggWF a)
    (s k : String) : AggWF (bump a s k) := by
  have hcounts : (List.map Prod.fst ((objGet a s).getD [])).Nodup ∧
      ∀ kc ∈ (objGet a s).getD [], 1 ≤ kc.2 := by
    rcases hg : objGet a s with _ | cl
    · simp
    · have h2 := ha (s, cl) (objGet_mem hg)
      simp only [Option.getD_some]
      exact ⟨h2.1, h2.2.2⟩
  intro scl hscl
  simp only [bump] at hscl
  rcases mem_objSet hscl with h1 | h1
  · rw [h1]
    refine ⟨bumpValue_nodup _ _ hcounts.1, objSet_ne_nil _ _ _, ?_⟩
    intro kc hkc
    rcases mem_objSet hkc with h2 | h2
    · rw [h2]
      exact Nat.succ_le_succ (Nat.zero_le _)
    · exact hcounts.2 kc h2
  · exact ha scl h1

theorem applyOccs_wf (occs : List (String × String))
    (a : List (String × List (String × Nat))) (ha : AggWF a) :
    AggWF (applyOccs a occs) := by
  induction occs generalizing a with
  | nil => exact ha
  | cons o rest ih => exact ih (bump a o.1 o.2) (bump_wf ha o.1 o.2)

theorem aggregateData_wf (data : List Entity) : AggWF (aggregateData data) := by
  rw [aggregateData_eq_applyOccs]
  refine applyOccs_wf _ _ ?_
  intro scl h
  simp at h

/-! ## Slug presence in the aggregation -/

theorem mem_fst_bump (a : List (String × List (String × Nat))) (s k s2 : String) :
    s2 ∈ (bump a s k).map Prod.fst ↔ s2 ∈ a.map Prod.fst ∨ s2 = s := by
  simp only [bump]
  exact mem_fst_objSet a s s2 _

theorem mem_fst_applyOccs (occs : List (String × String))
    (a : List (String × List (String × Nat))) (s2 : String) :
    s2 ∈ (applyOccs a occs).map Prod.fst ↔
      s2 ∈ a.map Prod.fst ∨ ∃ o ∈ occs, o.1 = s2 := by
  induction occs generalizing a with
  | nil => simp [applyOccs]
  | cons o rest ih =>
    have hstep : applyOccs a (o :: rest) = applyOccs (bump a o.1 o.2) rest := rfl
    rw [hstep, ih, mem_fst_bump]
    constructor
    · rintro ((h | h) | h)
      · exact Or.inl h
      · exact Or.inr ⟨o, List.mem_cons_self _ _, h.symm⟩
      · rcases h with ⟨o2, ho2, he⟩
        exact Or.inr ⟨o2, List.mem_cons_of_mem _ ho2, he⟩
    · rintro (h | h)
      · exact Or.inl (Or.inl h)
      · rcases h with ⟨o2, ho2, he⟩
        rcases List.mem_cons.1 ho2 with h2 | h2
        · subst h2
          exact Or.inl (Or.inr he.symm)
        · exact Or.inr ⟨o2, h2, he⟩

theorem mem_fst_aggregateData (data : List Entity) (s : String) :
    s ∈ (aggregateData data).map Prod.fst ↔
      ∃ o ∈ propertyOccurrences data, o.1 = s := by
  rw [aggregateData_eq_applyOccs, mem_fst_applyOccs]
  simp

/-! ## The stable descending sort -/

theorem mem_insertByCountDesc {α : Type} {x y : α × Nat} {l : List (α × Nat)}
    (h : y ∈ insertByCountDesc x l) : y = x ∨ y ∈ l := by
  induction l with
  | nil => simpa [insertByCountDesc] using h
  | cons z zs ih =>
    by_cases hz : z.2 < x.2
    · simp only [insertByCountDesc, if_pos hz] at h
      rcases List.mem_cons.1 h with h1 | h1
      · exact Or.inl h1
      · exact Or.inr h1
    · simp only [insertByCountDesc, if_neg hz] at h
      rcases List.mem_cons.1 h with h1 | h1
      · exact Or.inr (by rw [h1]; exact List.mem_cons_self _ _)
      · rcases ih h1 with h2 | h2
        · exact Or.inl h2
        · exact Or.inr (List.mem_cons_of_mem _ h2)

theorem perm_insertByCountDesc {α : Type} (x : α × Nat) (l : List (α × Nat)) :
    (insertByCountDesc x l).Perm (x :: l) := by
  induction l with
  | nil => simp [insertByCountDesc]
  | cons z zs ih =>
    by_cases hz : z.2 < x.2
    · simp [insertByCountDesc, hz]
    · simp only [insertByCountDesc, if_neg hz]
      exact (ih.cons z).trans (List.Perm.swap x z zs)

theorem sortByCountDesc_perm {α : Type} (l : List (α × Nat)) :
    (sortByCountDesc l).Perm l := by
  suffices hgen : ∀ acc : List (α × Nat),
      (l.foldl (fun acc x => insertByCountDesc x acc) acc).Perm (acc ++ l) by
    simpa using hgen []
  induction l with
  | nil => intro acc; simp
  | cons x xs ih =>
    intro acc
    rw [List.foldl_cons]
    refine (ih (insertByCountDesc x acc)).trans ?_
    refine (((perm_insertByCountDesc x acc).append_right xs).trans ?_)
    exact List.perm_middle.symm

theorem pairwise_insertByCountDesc {α : Type} {x : α × Nat} {l : List (α × Nat)}
    (h : l.Pairwise (fun a b => b.2 ≤ a.2)) :
    (insertByCountDesc x l).Pairwise (fun a b => b.2 ≤ a.2) := by
  induction l with
  | nil => simp [insertByCountDesc]
  | cons y ys ih =>
    rw [List.pairwise_cons] at h
    by_cases hy : y.2 < x.2
    · simp only [insertByCountDesc, if_pos hy]
      rw [List.pairwise_cons]
      refine ⟨?_, List.pairwise_cons.2 h⟩
      intro z hz
      rcases List.mem_cons.1 hz with h1 | h1
      · rw [h1]
        omega
      · have := h.1 z h1
        omega
    · simp only [insertByCountDesc, if_neg hy]
      rw [List.pairwise_cons]
      refine ⟨?_, ih h.2⟩
      intro z hz
      rcases mem_insertByCountDesc hz with h1 | h1
      · rw [h1]
        omega
      · exact h.1 z h1

theorem sortByCountDesc_sorted {α : Type} (l : List (α × Nat)) :
    (sortByCountDesc l).Pairwise (fun a b => b.2 ≤ a.2) := by
  suffices hgen : ∀ acc : List (α × Nat), acc.Pairwise (fun a b => b.2 ≤ a.2) →
      (l.foldl (fun acc x => insertByCountDesc x acc) acc).Pairwise
        (fun a b => b.2 ≤ a.2) by
    exact hgen [] (by simp)
  induction l with
  | nil => intro acc h; exact h
  | cons x xs ih =>
    intro acc h
    rw [List.foldl_cons]
    exact ih _ (pairwise_insertByCountDesc h)

end Peregrine

namespace Peregrine

/-! ## The filter agrees with the specification predicate on entities
with unique slugs -/

theorem propertyMatch_eq_any (e : Entity) (P : List (String × List Value))
    (h : (e.properties.map Property.slug).Nodup) :
    (P.all fun kv =>
      match e.properties.find? (fun p => p.slug == kv.1) with
      | none => false
      | some prop => !prop.value.isNull && kv.2.any (fun av => jsEq prop.value av))
    = P.all fun kv =>
        e.properties.any fun p =>
          p.slug == kv.1 && !p.value.isNull && kv.2.any (fun av => jsEq p.value av) := by
  induction P with
  | nil => rfl
  | cons kv P ih =>
    rw [List.all_cons, List.all_cons, ih]
    congr 1
    rcases hf : e.properties.find? (fun p => p.slug == kv.1) with _ | prop
    · simp only [hf]
      symm
      rw [List.any_eq_false]
      intro q hq hcon
      rw [Bool.and_eq_true, Bool.and_eq_true] at hcon
      exact List.find?_eq_none.1 hf q hq hcon.1.1
    · simp only [hf]
      have hmem := List.mem_of_find?_eq_some hf
      have hslug := List.find?_some hf
      cases hcc : (!prop.value.isNull && kv.2.any fun av => jsEq prop.value av) with
      | true =>
        symm
        rw [List.any_eq_true]
        have hcc2 := hcc
        rw [Bool.and_eq_true] at hcc2
        exact ⟨prop, hmem, by simp [hslug, hcc2.1, hcc2.2]⟩
      | false =>
        symm
        rw [List.any_eq_false]
        intro q hq hcon
        rw [Bool.and_eq_true, Bool.and_eq_true] at hcon
        obtain ⟨⟨ha, hb⟩, hc3⟩ := hcon
        have hqp : q = prop :=
          List.inj_on_of_nodup_map h hq hmem
            (by rw [beq_iff_eq.1 ha, beq_iff_eq.1 hslug])
        rw [hqp] at hb hc3
        have hX : (!prop.value.isNull && kv.2.any fun av => jsEq prop.value av) = true := by
          rw [Bool.and_eq_true]
          exact ⟨hb, hc3⟩
        rw [hcc] at hX
        simp at hX

theorem filterData_eq_spec (data : List Entity) (MF : Option (List String))
    (P : List (String × List Value))
    (h : ∀ e ∈ data, (e.properties.map Property.slug).Nodup) :
    filterData data MF P = data.filter (specKeep MF P) := by
  unfold filterData
  apply List.filter_congr
  intro e he
  exact congrArg
    (fun b =>
      (match MF with
       | none => true
       | some mf => mf.isEmpty || mf.contains e.model) && b)
    (propertyMatch_eq_any e P (h e he))

/-! ## Helper lemmas for the relational boolean remap and the parser -/

theorem countP_filterMap_getD {α β : Type} (f : α → Option β) (l : List α)
    (p : β → Bool) :
    (l.filterMap f).countP p = l.countP fun a => ((f a).map p).getD false := by
  induction l with
  | nil => rfl
  | cons a l ih =>
    rcases hf : f a with _ | b
    · simp [List.filterMap_cons, hf, List.countP_cons, ih]
    · simp [List.filterMap_cons, hf, List.countP_cons, ih]

theorem parseFold_objGet_unchanged (post : List String)
    (m : List (String × List Value)) (k : String)
    (hpost : ∀ g ∈ post, (parseOneFilter g).map Prod.fst ≠ some k) :
    objGet (post.foldl parseFilterStep m) k = objGet m k := by
  induction post generalizing m with
  | nil => rfl
  | cons g post ih =>
    rw [List.foldl_cons]
    have hg := hpost g (List.mem_cons_self _ _)
    have hrest : ∀ g2 ∈ post, (parseOneFilter g2).map Prod.fst ≠ some k :=
      fun g2 h2 => hpost g2 (List.mem_cons_of_mem _ h2)
    rcases hpf : parseOneFilter g with _ | kv
    · rw [ih _ hrest]
      simp [parseFilterStep, hpf]
    · rw [ih _ hrest]
      simp only [parseFilterStep, hpf]
      apply objGet_objSet_ne
      intro he
      apply hg
      rw [hpf, he]
      rfl

end Peregrine

namespace Peregrine

/-! ## The claims -/

/-- C1 counterexample: the claim fails on the code.  A string value is
used as its own bucket key while a non-string is JSON-serialized, and
JSON.stringify of the number 2008 is the very string "2008", so the
number 2008 and the string "2008" receive the same value key and are
merged into one bucket of count 2 instead of two buckets. -/
theorem C1_counterexample :
    valueKey (Value.vInt 2008) = valueKey (Value.vStr "2008")
    ∧ aggregateData
        [⟨"case", [⟨"year", "integer", Value.vInt 2008⟩]⟩,
         ⟨"vehicle", [⟨"year", "string", Value.vStr "2008"⟩]⟩]
      = [("year", [("2008", 2)])] :=
  ⟨rfl, rfl⟩

/-- C1 amended: strings are used as their own bucket key and every
non-string is serialized with JSON.stringify, but this keeps types
distinct only when the serializations differ: the number 2008
serializes to exactly the string "2008", so for every slug the number
2008 and the string "2008" are counted in the SAME bucket. -/
theorem C1_amended_bucketing (slug model1 model2 t1 t2 : String) :
    valueKey (Value.vInt 2008) = "2008"
    ∧ valueKey (Value.vStr "2008") = "2008"
    ∧ aggregateData
        [⟨model1, [⟨slug, t1, Value.vInt 2008⟩]⟩,
         ⟨model2, [⟨slug, t2, Value.vStr "2008"⟩]⟩]
      = [(slug, [("2008", 2)])] := by
  have h1 : valueKey (Value.vInt 2008) = "2008" := rfl
  have h2 : valueKey (Value.vStr "2008") = "2008" := rfl
  refine ⟨h1, h2, ?_⟩
  simp [aggregateData, List.foldl_cons, List.foldl_nil, Value.isNull, bump,
    objGet, objSet, h1, h2]

/-- C3 counterexample: the claim fails on the code.  The parser does not
split on the FIRST colon only: Array destructuring of split(":") keeps
the first two segments, so for "a:b:c" the value list comes from the
segment "b" between the two colons and the trailing ":c" is silently
dropped, instead of the claimed value part "b:c". -/
theorem C3_counterexample :
    parsePropertyFilters (some ["a:b:c"]) = [("a", [Value.vStr "b"])]
    ∧ parsePropertyFilters (some ["a:b:c"]) ≠ [("a", [Value.vStr "b:c"])] := by
  exact ⟨rfl, by decide⟩

/-- C3 amended: each entry is split on every ':'; the key is the first
segment and the comma-separated value list is the SECOND segment
(segments after a second colon are discarded, e.g. "a:b:c" binds a to
["b"]); an entry whose key or second segment is missing or empty is
skipped while parsing of the remaining entries continues, so the map is
exactly the one built from the well-formed entries. -/
theorem C3_amended_parse (fs : List String) :
    parsePropertyFilters (some fs)
      = parsePropertyFilters (some (fs.filter fun f => (parseOneFilter f).isSome))
    ∧ parsePropertyFilters (some ["a:b:c"]) = [("a", [Value.vStr "b"])] := by
  constructor
  · suffices hgen : ∀ (l : List String) (m : List (String × List Value)),
        l.foldl parseFilterStep m
          = (l.filter fun f => (parseOneFilter f).isSome).foldl parseFilterStep m by
      exact hgen fs []
    intro l
    induction l with
    | nil => intro m; rfl
    | cons f l ih =>
      intro m
      rcases hpf : parseOneFilter f with _ | kv
      · rw [List.foldl_cons, List.filter_cons]
        simp only [hpf, Option.isSome_none, Bool.false_eq_true, if_false]
        rw [show parseFilterStep m f = m by simp [parseFilterStep, hpf]]
        exact ih m
      · rw [List.foldl_cons, List.filter_cons]
        simp only [hpf, Option.isSome_some, if_true]
        rw [List.foldl_cons]
        exact ih _
  · rfl

/-- C4 counterexample: the claim fails on the code.  parseValue is a
bare JSON.parse with a string fallback, and JSON.parse accepts composite
documents: the raw value "[1]" parses to the array [1], a non-scalar. -/
theorem C4_counterexample :
    parseValue "[1]" = Value.vArr [Value.vInt 1]
    ∧ (parseValue "[1]").isScalar = false :=
  ⟨rfl, rfl⟩

/-- C4 amended: type inference returns whatever JSON value the string
parses to — a scalar (integer, boolean, null) in the common cases, but
possibly a composite array or object such as "[1]" — and returns the
original string unchanged exactly when JSON parsing fails. -/
theorem C4_amended_parseValue :
    parseValue "2008" = Value.vInt 2008
    ∧ parseValue "true" = Value.vBool true
    ∧ parseValue "false" = Value.vBool false
    ∧ parseValue "null" = Value.vNull
    ∧ parseValue "brown" = Value.vStr "brown"
    ∧ parseValue "[1]" = Value.vArr [Value.vInt 1]
    ∧ (∀ s v, jsonParse s = some v → parseValue s = v)
    ∧ (∀ s, jsonParse s = none → parseValue s = Value.vStr s) := by
  refine ⟨rfl, rfl, rfl, rfl, rfl, rfl, ?_, ?_⟩
  · intro s v h
    simp [parseValue, h]
  · intro s h
    simp [parseValue, h]

/-- C8: filter-value equality is strict and type-aware.  The filter
"year:2008" is inferred as the integer 2008, and filterData keeps the
entity whose year property holds the integer 2008 while dropping the
entity whose year holds the string "2008". -/
theorem C8_strict_type_filter :
    parsePropertyFilters (some ["year:2008"]) = [("year", [Value.vInt 2008])]
    ∧ filterData
        [⟨"vehicle", [⟨"year", "integer", Value.vInt 2008⟩]⟩,
         ⟨"case", [⟨"year", "string", Value.vStr "2008"⟩]⟩]
        (some ["case", "vehicle"]) (parsePropertyFilters (some ["year:2008"]))
      = [⟨"vehicle", [⟨"year", "integer", Value.vInt 2008⟩]⟩] :=
  ⟨rfl, rfl⟩

end Peregrine

namespace Peregrine

/-- C2: on entities whose slugs are unique within each entity (the data
model invariant), filterData returns exactly the subsequence of
entities, in original relative order, kept iff the model passes the
allow-list (empty or absent means wildcard, membership is exact and
case-sensitive) and, for every key of the filter map, the entity has a
property with that slug whose value is non-null and is a member of the
acceptable-value set. -/
theorem C2_filter_semantics (data : List Entity) (MF : Option (List String))
    (P : List (String × List Value))
    (h : ∀ e ∈ data, (e.properties.map Property.slug).Nodup) :
    filterData data MF P = data.filter (specKeep MF P)
    ∧ (filterData data MF P).Sublist data := by
  refine ⟨filterData_eq_spec data MF P h, ?_⟩
  rw [filterData_eq_spec data MF P h]
  exact List.filter_sublist data

/-- C2 witness: the filter semantics at a concrete two-entity input. -/
theorem C2_filter_semantics_witness :
    filterData
      [⟨"vehicle", [⟨"year", "integer", Value.vInt 2008⟩]⟩,
       ⟨"case", [⟨"year", "string", Value.vStr "2008"⟩]⟩]
      (some ["vehicle"]) [("year", [Value.vInt 2008])]
    = List.filter (specKeep (some ["vehicle"]) [("year", [Value.vInt 2008])])
        [⟨"vehicle", [⟨"year", "integer", Value.vInt 2008⟩]⟩,
         ⟨"case", [⟨"year", "string", Value.vStr "2008"⟩]⟩]
    ∧ (filterData
        [⟨"vehicle", [⟨"year", "integer", Value.vInt 2008⟩]⟩,
         ⟨"case", [⟨"year", "string", Value.vStr "2008"⟩]⟩]
        (some ["vehicle"]) [("year", [Value.vInt 2008])]).Sublist
      [⟨"vehicle", [⟨"year", "integer", Value.vInt 2008⟩]⟩,
       ⟨"case", [⟨"year", "string", Value.vStr "2008"⟩]⟩] :=
  C2_filter_semantics _ _ _ (by decide)

/-- C5 counterexample: the claim fails on the code.  The empty
allow-list is a wildcard, so adding one model name to the EMPTY list
shrinks the result: with one entity of model "a", the empty list keeps
it (1 entity) and the list ["b"] keeps nothing (0 entities). -/
theorem C5_counterexample :
    ¬((filterData [⟨"a", []⟩] (some []) []).length
        ≤ (filterData [⟨"a", []⟩] (some ["b"]) []).length) := by
  decide

/-- C5 amended: adding a model name to a NONEMPTY allow-list never
decreases the number of entities returned (from the empty list it can,
because empty means wildcard), and adding one new key to the filter map
never increases it. -/
theorem C5_monotonicity (data : List Entity) (MF : Option (List String))
    (M : List String) (m k : String) (P P2 : List (String × List Value))
    (vs : List Value) (hM : M ≠ []) (hk : objGet P2 k = none) :
    (filterData data (some M) P).length ≤ (filterData data (some (M ++ [m])) P).length
    ∧ (filterData data MF (objSet P2 k vs)).length ≤ (filterData data MF P2).length := by
  constructor
  · unfold filterData
    rw [← List.countP_eq_length_filter, ← List.countP_eq_length_filter]
    apply List.countP_mono_left
    intro e he hkeep
    rw [Bool.and_eq_true] at hkeep ⊢
    refine ⟨?_, hkeep.2⟩
    have hor := hkeep.1
    rw [Bool.or_eq_true] at hor
    rcases hor with hemp | hcont
    · exact absurd (List.isEmpty_iff.1 hemp) hM
    · rw [Bool.or_eq_true]
      right
      exact List.elem_eq_true_of_mem
        (List.mem_append_left [m] (List.mem_of_elem_eq_true hcont))
  · unfold filterData
    rw [← List.countP_eq_length_filter, ← List.countP_eq_length_filter]
    apply List.countP_mono_left
    intro e he hkeep
    rw [objSet_of_objGet_none _ _ _ hk] at hkeep
    rw [Bool.and_eq_true] at hkeep ⊢
    refine ⟨hkeep.1, ?_⟩
    have h2 := hkeep.2
    rw [List.all_append, Bool.and_eq_true] at h2
    exact h2.1

/-- C5 witness: the amended monotonicity at a concrete input. -/
theorem C5_monotonicity_witness :
    (filterData [⟨"a", []⟩] (some ["a"]) []).length
      ≤ (filterData [⟨"a", []⟩] (some (["a"] ++ ["b"])) []).length
    ∧ (filterData [⟨"a", []⟩] none (objSet [] "x" [])).length
      ≤ (filterData [⟨"a", []⟩] none []).length :=
  C5_monotonicity [⟨"a", []⟩] none ["a"] "b" "x" [] [] [] (by decide) rfl

/-- C6: the per-bucket counts of the filtered aggregation are invariant
under any permutation of the input entity list: each (slug, value key)
bucket receives the same count regardless of input order. -/
theorem C6_order_invariance (data1 data2 : List Entity)
    (MF : Option (List String)) (P : List (String × List Value))
    (slug vk : String) (h : data1.Perm data2) :
    aggGet (aggregateData (filterData data1 MF P)) slug vk
      = aggGet (aggregateData (filterData data2 MF P)) slug vk := by
  rw [aggGet_aggregateData, aggGet_aggregateData]
  exact occCount_perm_of_perm (List.Perm.filter _ h) slug vk

/-- C6 witness: order invariance at a concrete two-entity input. -/
theorem C6_order_invariance_witness :
    aggGet
      (aggregateData
        (filterData
          [⟨"vehicle", [⟨"year", "integer", Value.vInt 2008⟩]⟩,
           ⟨"case", [⟨"year", "string", Value.vStr "2008"⟩]⟩] none []))
      "year" "2008"
    = aggGet
        (aggregateData
          (filterData
            [⟨"case", [⟨"year", "string", Value.vStr "2008"⟩]⟩,
             ⟨"vehicle", [⟨"year", "integer", Value.vInt 2008⟩]⟩] none []))
        "year" "2008" :=
  C6_order_invariance _ _ none [] "year" "2008" (by decide)

/-- C10: when several well-formed raw entries share one key, the
resulting map binds the key to the value list parsed from the LAST such
entry: whatever earlier entries bound is overwritten, and no merging of
value lists happens. -/
theorem C10_last_entry_wins (pre post : List String) (f k : String)
    (vs : List Value) (hf : parseOneFilter f = some (k, vs))
    (hpost : ∀ g ∈ post, (parseOneFilter g).map Prod.fst ≠ some k) :
    objGet (parsePropertyFilters (some (pre ++ f :: post))) k = some vs := by
  show objGet ((pre ++ f :: post).foldl parseFilterStep []) k = some vs
  rw [List.foldl_append, List.foldl_cons]
  rw [parseFold_objGet_unchanged post _ k hpost]
  simp only [parseFilterStep, hf]
  exact objGet_objSet_self _ _ _

/-- C10 witness: "year:1999" overwrites the earlier "year:2008" and is
untouched by the later "make:toyota". -/
theorem C10_last_entry_wins_witness :
    objGet (parsePropertyFilters (some ["year:2008", "year:1999", "make:toyota"]))
      "year" = some [Value.vInt 1999] :=
  C10_last_entry_wins ["year:2008"] ["make:toyota"] "year:1999" "year"
    [Value.vInt 1999] rfl (by decide)

end Peregrine

namespace Peregrine

theorem rowOccurrences_eq_flat (rows : List (List (String × Value))) :
    rowOccurrences rows
      = (rows.flatMap id).filterMap fun kv =>
          if kv.2.isNull then none
          else some (kv.1, valueKey (normalizeBooleanColumn kv.1 kv.2)) := by
  induction rows with
  | nil => rfl
  | cons row rest ih =>
    simp only [rowOccurrences, List.flatMap_cons, List.filterMap_append, id] at ih ⊢
    rw [ih]
    rfl

/-- C7 counterexample: the claim fails on the code.  Two distinct value
keys can re-parse to the same displayed value: the stored string with
literal quotes around a and the stored plain string a occupy two
buckets, and formatAggregation re-parses both keys to the same string
value, which therefore appears twice in one slug list. -/
theorem C7_counterexample :
    run [⟨"m", [⟨"s", "string", Value.vStr "\"a\""⟩]⟩,
         ⟨"m", [⟨"s", "string", Value.vStr "a"⟩]⟩] none none
      = [("s", [(Value.vStr "a", 1), (Value.vStr "a", 1)])]
    ∧ ¬(([(Value.vStr "a", 1), (Value.vStr "a", 1)].map Prod.fst).Nodup) := by
  exact ⟨rfl, by decide⟩

/-- C7 amended: every slug list of the formatted result is sorted by
count descending, holds only positive counts, is never empty, and is a
permutation of the re-parsed bucket list of that slug, whose PRE-parse
value keys are pairwise distinct (after re-parsing, two distinct keys
may collide on the same displayed value); and a slug with no qualifying
non-null occurrence among the filtered entities is absent from the
result entirely. -/
theorem C7_format_invariants (data : List Entity) (MF PF : Option (List String)) :
    (∀ scl ∈ run data MF PF,
        scl.2.Pairwise (fun a b => b.2 ≤ a.2)
        ∧ (∀ vc ∈ scl.2, 1 ≤ vc.2)
        ∧ scl.2 ≠ []
        ∧ ∃ cl,
            (scl.1, cl) ∈ aggregateData (filterData data MF (parsePropertyFilters PF))
            ∧ (cl.map Prod.fst).Nodup
            ∧ scl.2.Perm (cl.map fun kc => (parseValue kc.1, kc.2)))
    ∧ ∀ slug,
        (∀ o ∈ propertyOccurrences (filterData data MF (parsePropertyFilters PF)),
          o.1 ≠ slug) →
        slug ∉ (run data MF PF).map Prod.fst := by
  constructor
  · intro scl hscl
    simp only [run, formatAggregation] at hscl
    rw [List.mem_map] at hscl
    obtain ⟨scl0, hscl0, heq⟩ := hscl
    have hwf := aggregateData_wf (filterData data MF (parsePropertyFilters PF)) scl0 hscl0
    subst heq
    refine ⟨sortByCountDesc_sorted _, ?_, ?_, ?_⟩
    · intro vc hvc
      have hvc2 := (sortByCountDesc_perm
        (scl0.2.map fun kc => (parseValue kc.1, kc.2))).mem_iff.1 hvc
      rw [List.mem_map] at hvc2
      obtain ⟨kc, hkc, hfe⟩ := hvc2
      have := hwf.2.2 kc hkc
      rw [← hfe]
      exact this
    · intro hnil
      have hnil2 : sortByCountDesc
          (scl0.2.map fun kc => (parseValue kc.1, kc.2)) = [] := hnil
      have hlen := (sortByCountDesc_perm
        (scl0.2.map fun kc => (parseValue kc.1, kc.2))).length_eq
      rw [hnil2] at hlen
      simp only [List.length_nil, List.length_map] at hlen
      exact hwf.2.1 (List.length_eq_zero.1 hlen.symm)
    · exact ⟨scl0.2, hscl0, hwf.1, sortByCountDesc_perm _⟩
  · intro slug hocc hmem
    simp only [run, formatAggregation, List.map_map] at hmem
    rw [List.mem_map] at hmem
    obtain ⟨scl0, hscl0, h1⟩ := hmem
    have hks : scl0.1 ∈ (aggregateData
        (filterData data MF (parsePropertyFilters PF))).map Prod.fst :=
      List.mem_map.2 ⟨scl0, hscl0, rfl⟩
    rw [mem_fst_aggregateData] at hks
    obtain ⟨o, ho, he⟩ := hks
    exact hocc o ho (by rw [he]; exact h1)

/-- C9: in the relational variant, a boolean column stored as the
integers 1/0 is counted under the display keys true/false (exactly as
many times as 1 and 0 occur), never under the raw keys 1/0, and the
formatted output for that column likewise never shows a 1 or 0 key. -/
theorem C9_boolean_normalization (rows : List (List (String × Value))) (key : String)
    (hkey : key ∈ booleanColumns)
    (hvals : ∀ row ∈ rows, ∀ kv ∈ row, kv.1 = key →
        kv.2 = Value.vInt 0 ∨ kv.2 = Value.vInt 1 ∨ kv.2 = Value.vNull) :
    aggGet (aggregateDataRel rows) key "true" = valCount rows key (Value.vInt 1)
    ∧ aggGet (aggregateDataRel rows) key "false" = valCount rows key (Value.vInt 0)
    ∧ aggGet (aggregateDataRel rows) key "1" = 0
    ∧ aggGet (aggregateDataRel rows) key "0" = 0
    ∧ ∀ cl, objGet (formatAggregationRel (aggregateDataRel rows)) key = some cl →
        ∀ kc ∈ cl, kc.1 ≠ "1" ∧ kc.1 ≠ "0" := by
  have hcont : booleanColumns.contains key = true := List.elem_eq_true_of_mem hkey
  have hn1 : normalizeBooleanColumn key (Value.vInt 1) = Value.vBool true := by
    simp [normalizeBooleanColumn, hcont, hkey]
  have hn0 : normalizeBooleanColumn key (Value.vInt 0) = Value.vBool false := by
    simp [normalizeBooleanColumn, hcont, hkey]
  have hvkt : valueKey (Value.vBool true) = "true" := rfl
  have hvkf : valueKey (Value.vBool false) = "false" := rfl
  have hflat : ∀ kv ∈ rows.flatMap id, kv.1 = key →
      kv.2 = Value.vInt 0 ∨ kv.2 = Value.vInt 1 ∨ kv.2 = Value.vNull := by
    intro kv hkv
    rw [List.mem_flatMap] at hkv
    obtain ⟨row, hrow, hkvr⟩ := hkv
    exact hvals row hrow kv hkvr
  have hmain : ∀ vk : String, aggGet (aggregateDataRel rows) key vk
      = (rows.flatMap id).countP fun kv =>
          decide (kv.1 = key ∧ kv.2.isNull = false
            ∧ valueKey (normalizeBooleanColumn key kv.2) = vk) := by
    intro vk
    rw [aggGet_aggregateDataRel, occCount, rowOccurrences_eq_flat,
      countP_filterMap_getD]
    apply List.countP_congr
    intro kv hkv
    obtain ⟨k0, v0⟩ := kv
    by_cases hk : k0 = key
    · subst hk
      rcases hnull : v0.isNull with _ | _
      · simp [hnull]
      · simp [hnull]
    · rcases hnull : v0.isNull with _ | _
      · simp [hnull, hk]
      · simp [hnull, hk]
  have hocckey : ∀ o ∈ rowOccurrences rows, o.1 = key → o.2 ≠ "1" ∧ o.2 ≠ "0" := by
    intro o ho
    rw [rowOccurrences_eq_flat, List.mem_filterMap] at ho
    obtain ⟨kv, hkv, heq⟩ := ho
    rcases hnull : kv.2.isNull with _ | _
    · rw [hnull] at heq
      simp only [Bool.false_eq_true, if_false, Option.some.injEq] at heq
      intro hko
      rw [← heq] at hko
      have hkey2 : kv.1 = key := hko
      rcases hflat kv hkv hkey2 with h0 | h1 | hn
      · rw [← heq, h0, hkey2, hn0, hvkf]
        exact ⟨by simp, by simp⟩
      · rw [← heq, h1, hkey2, hn1, hvkt]
        exact ⟨by simp, by simp⟩
      · rw [hn] at hnull
        simp [Value.isNull] at hnull
    · rw [hnull] at heq
      simp at heq
  refine ⟨?_, ?_, ?_, ?_, ?_⟩
  · rw [hmain, valCount]
    apply List.countP_congr
    intro kv hkv
    obtain ⟨k0, v0⟩ := kv
    by_cases hk : k0 = key
    · rcases hflat (k0, v0) hkv hk with rfl | rfl | rfl
      · simp [hk, hn0, hvkf, Value.isNull]
      · simp [hk, hn1, hvkt, Value.isNull]
      · simp [hk, Value.isNull]
    · simp [hk]
  · rw [hmain, valCount]
    apply List.countP_congr
    intro kv hkv
    obtain ⟨k0, v0⟩ := kv
    by_cases hk : k0 = key
    · rcases hflat (k0, v0) hkv hk with rfl | rfl | rfl
      · simp [hk, hn0, hvkf, Value.isNull]
      · simp [hk, hn1, hvkt, Value.isNull]
      · simp [hk, Value.isNull]
    · simp [hk]
  · rw [hmain, List.countP_eq_zero]
    intro kv hkv hcon
    obtain ⟨k0, v0⟩ := kv
    simp only [decide_eq_true_eq] at hcon
    obtain ⟨hk, hnn, hvk⟩ := hcon
    rcases hflat (k0, v0) hkv hk with rfl | rfl | rfl
    · rw [hn0, hvkf] at hvk
      simp at hvk
    · rw [hn1, hvkt] at hvk
      simp at hvk
    · simp [Value.isNull] at hnn
  · rw [hmain, List.countP_eq_zero]
    intro kv hkv hcon
    obtain ⟨k0, v0⟩ := kv
    simp only [decide_eq_true_eq] at hcon
    obtain ⟨hk, hnn, hvk⟩ := hcon
    rcases hflat (k0, v0) hkv hk with rfl | rfl | rfl
    · rw [hn0, hvkf] at hvk
      simp at hvk
    · rw [hn1, hvkt] at hvk
      simp at hvk
    · simp [Value.isNull] at hnn
  · intro cl hcl kc hkc
    have hfmt : objGet (formatAggregationRel (aggregateDataRel rows)) key
        = (objGet (aggregateDataRel rows) key).map sortByCountDesc := by
      simp only [formatAggregationRel]
      exact objGet_map_snd _ _ _
    rw [hfmt] at hcl
    rcases hg : objGet (aggregateDataRel rows) key with _ | cl0
    · rw [hg] at hcl
      exact Option.noConfusion hcl
    · rw [hg] at hcl
      have hcl2 : sortByCountDesc cl0 = cl := Option.some.inj hcl
      have hkc0 : kc ∈ cl0 := by
        rw [← hcl2] at hkc
        exact (sortByCountDesc_perm cl0).mem_iff.1 hkc
      have hpred := applyOccs_entryPred
        (fun s k2 => s = key → k2 ≠ "1" ∧ k2 ≠ "0")
        (rowOccurrences rows) []
        (by intro scl h; simp at h)
        (by intro o ho hok; exact hocckey o ho hok)
      rw [← aggregateDataRel_eq_applyOccs] at hpred
      exact hpred (key, cl0) (objGet_mem hg) kc hkc0 rfl

/-- C9 witness: two concrete rows with stolen stored as 1 and as 0. -/
theorem C9_boolean_normalization_witness :
    aggGet
      (aggregateDataRel
        [[("stolen", Value.vInt 1), ("make", Value.vStr "toyota")],
         [("stolen", Value.vInt 0)]]) "stolen" "true"
      = valCount
          [[("stolen", Value.vInt 1), ("make", Value.vStr "toyota")],
           [("stolen", Value.vInt 0)]] "stolen" (Value.vInt 1)
    ∧ aggGet
        (aggregateDataRel
          [[("stolen", Value.vInt 1), ("make", Value.vStr "toyota")],
           [("stolen", Value.vInt 0)]]) "stolen" "false"
      = valCount
          [[("stolen", Value.vInt 1), ("make", Value.vStr "toyota")],
           [("stolen", Value.vInt 0)]] "stolen" (Value.vInt 0)
    ∧ aggGet
        (aggregateDataRel
          [[("stolen", Value.vInt 1), ("make", Value.vStr "toyota")],
           [("stolen", Value.vInt 0)]]) "stolen" "1" = 0
    ∧ aggGet
        (aggregateDataRel
          [[("stolen", Value.vInt 1), ("make", Value.vStr "toyota")],
           [("stolen", Value.vInt 0)]]) "stolen" "0" = 0
    ∧ ∀ cl,
        objGet
          (formatAggregationRel
            (aggregateDataRel
              [[("stolen", Value.vInt 1), ("make", Value.vStr "toyota")],
               [("stolen", Value.vInt 0)]])) "stolen" = some cl →
        ∀ kc ∈ cl, kc.1 ≠ "1" ∧ kc.1 ≠ "0" :=
  C9_boolean_normalization
    [[("stolen", Value.vInt 1), ("make", Value.vStr "toyota")],
     [("stolen", Value.vInt 0)]] "stolen" (by decide) (by decide)

end Peregrine
